import Mathlib

/-!
Verification development for the LIS serial-interface repository: a shallow
embedding of the stream framer (`_consumeChar` / `_onData`) and of the
protocol decoder (`parseProtocol`) of `LISSerialInterface`, together with
proofs of the specification's claims about them.

Modelling conventions:
* JavaScript strings are embedded as `List Char`; chunks arrive already
  decoded to characters (the delimiters are ASCII).
* JavaScript numbers are embedded as the type `JSNum` below: an exact
  rational, a signed infinity, or the not-a-number marker.  Decimal values
  are kept as exact rationals (an idealisation of binary floating point;
  all constants appearing in the source are compared consistently).
* `Number(...)` and `parseFloat(...)` are modelled by `jsNumberOfString`
  and `jsParseFloat` following their ECMAScript string-conversion grammars.
* The decoder is a total function, mirroring the fact that the source's
  `parseProtocol` contains no throwing operation; the `try/catch` around it
  in `_handleCompleteMessage` is modelled by an arbitrary decoder of type
  `List Char → Except (List Char) DecodedResult` where that matters.
* `receivedAt` (a wall-clock timestamp in the source) is passed in as an
  opaque argument `now`.
-/

namespace LIS

/-- The whitespace characters recognised by the embedded trim /
whitespace-class operations (the ASCII part of JavaScript's `\s`). -/
def jsIsWS (c : Char) : Bool :=
  c = ' ' || c = '\t' || c = '\n' || c = '\x0b' || c = '\x0c' || c = '\r'

/-- Trim whitespace from both ends, as JavaScript `String.prototype.trim`. -/
def trimWS (l : List Char) : List Char :=
  ((l.dropWhile jsIsWS).reverse.dropWhile jsIsWS).reverse

/-- Split a character list at every occurrence of the separator character,
as JavaScript `String.prototype.split` with a one-character separator:
the result is never empty, and separators at the ends yield empty pieces. -/
def splitOnChar (sep : Char) : List Char → List (List Char)
  | [] => [[]]
  | c :: cs =>
    match splitOnChar sep cs with
    | [] => [[]]
    | x :: xs => if c = sep then [] :: x :: xs else (c :: x) :: xs

/-- Substring containment over character lists: JavaScript
`String.prototype.includes`. -/
def containsSub (pat l : List Char) : Bool :=
  (List.range (l.length + 1)).any (fun i => pat.isPrefixOf (l.drop i))

/-- Index of the first occurrence of `pat` in `l`, if any (the search
primitive behind the decoder's leftmost regex matches). -/
def findSub (pat : List Char) : List Char → Option Nat
  | [] => if pat.isPrefixOf ([] : List Char) then some 0 else none
  | c :: cs =>
    if pat.isPrefixOf (c :: cs) then some 0
    else (findSub pat cs).map (· + 1)

/-- Normalise line endings exactly as
`raw.replace(/\r\n/g, "\n").replace(/\r/g, "\n")`: first every CRLF pair
becomes LF (left to right, non-overlapping), then every remaining CR
becomes LF. -/
def replaceCRLF : List Char → List Char
  | '\r' :: '\n' :: rest => '\n' :: replaceCRLF rest
  | c :: rest => c :: replaceCRLF rest
  | [] => []

/-- Full line-ending normalisation performed on `raw` at the start of
`parseProtocol`. -/
def normalizeNewlines (l : List Char) : List Char :=
  (replaceCRLF l).map (fun c => if c = '\r' then '\n' else c)

/-- A JavaScript number as produced by `Number(...)` / `parseFloat(...)`:
not-a-number, a signed infinity, or an exact (idealised) finite value. -/
inductive JSNum
  | nan
  | posInf
  | negInf
  | num (q : ℚ)
  deriving DecidableEq, Repr

/-- The JavaScript `<` comparison between a number and a finite constant:
`NaN` compares false, infinities in the obvious way. -/
def jsLtQ (v : JSNum) (q : ℚ) : Bool :=
  match v with
  | .nan => false
  | .posInf => false
  | .negInf => true
  | .num x => decide (x < q)

/-- Numeric value of a digit list in the given radix (`none` when empty or
containing an invalid digit). -/
def digitsToNat (radix : Nat) (l : List Char) : Option Nat :=
  match l with
  | [] => none
  | _ =>
    l.foldlM
      (fun acc c =>
        let d :=
          if '0' ≤ c ∧ c ≤ '9' then some (c.toNat - '0'.toNat)
          else if 'a' ≤ c ∧ c ≤ 'f' then some (c.toNat - 'a'.toNat + 10)
          else if 'A' ≤ c ∧ c ≤ 'F' then some (c.toNat - 'A'.toNat + 10)
          else none
        match d with
        | some d => if d < radix then some (acc * radix + d) else none
        | none => none)
      0

def isDigit (c : Char) : Bool := '0' ≤ c && c ≤ '9'

/-- Value of a decimal digit list, as a natural number (digits assumed
checked). -/
def decValue (l : List Char) : Nat :=
  l.foldl (fun acc c => acc * 10 + (c.toNat - '0'.toNat)) 0

/-- Rational value of `intPart.fracPart × 10^exp`. -/
def decToRat (intPart fracPart : List Char) (exp : Int) : ℚ :=
  ((decValue intPart : ℚ) + (decValue fracPart : ℚ) / (10 : ℚ) ^ fracPart.length)
    * (10 : ℚ) ^ exp

/-- Parse a whole-string decimal literal (ECMAScript StrDecimalLiteral
without sign): `digits [. digits] [e/E [sign] digits]`, at least one digit
overall, nothing left over. -/
def parseDecFull (l : List Char) : Option ℚ :=
  let (intD, r1) := l.span isDigit
  let (fracD, r2) :=
    match r1 with
    | '.' :: rest => rest.span isDigit
    | _ => (([] : List Char), r1)
  if intD = [] ∧ fracD = [] then none
  else
    match r2 with
    | [] => some (decToRat intD fracD 0)
    | 'e' :: rest => (parseExpFull rest).map (decToRat intD fracD)
    | 'E' :: rest => (parseExpFull rest).map (decToRat intD fracD)
    | _ => none
where
  /-- Parse a whole-string signed decimal exponent. -/
  parseExpFull (l : List Char) : Option Int :=
    let (sgn, r) :=
      match l with
      | '+' :: r => ((1 : Int), r)
      | '-' :: r => ((-1 : Int), r)
      | _ => ((1 : Int), l)
    let (digs, rest) := r.span isDigit
    if digs = [] ∨ rest ≠ [] then none else some (sgn * decValue digs)

/-- `Number(string)`: trim, empty means zero, then either a radix-prefixed
integer literal (`0x`/`0o`/`0b`), or an optionally signed `Infinity` or
decimal literal covering the whole remaining string; anything else is NaN. -/
def jsNumberOfString (s : List Char) : JSNum :=
  let t := trimWS s
  match t with
  | [] => .num 0
  | '0' :: 'x' :: rest => radix 16 rest
  | '0' :: 'X' :: rest => radix 16 rest
  | '0' :: 'o' :: rest => radix 8 rest
  | '0' :: 'O' :: rest => radix 8 rest
  | '0' :: 'b' :: rest => radix 2 rest
  | '0' :: 'B' :: rest => radix 2 rest
  | _ =>
    let (neg, r) :=
      match t with
      | '+' :: r => (false, r)
      | '-' :: r => (true, r)
      | _ => (false, t)
    if r = "Infinity".toList then (if neg then .negInf else .posInf)
    else
      match parseDecFull r with
      | some q => .num (if neg then -q else q)
      | none => .nan
where
  radix (k : Nat) (l : List Char) : JSNum :=
    match digitsToNat k l with
    | some n => .num (n : ℚ)
    | none => .nan

/-- `Number(...)` applied to a possibly-undefined field:
`Number(undefined)` is NaN. -/
def jsNumber (o : Option (List Char)) : JSNum :=
  match o with
  | none => .nan
  | some s => jsNumberOfString s

/-- `parseFloat(string)`: skip leading whitespace, optional sign, then the
longest prefix that is `Infinity` or a decimal literal; a malformed
exponent part is ignored rather than failing; NaN when no digits at all. -/
def jsParseFloat (l : List Char) : JSNum :=
  let t := l.dropWhile jsIsWS
  let (neg, r) :=
    match t with
    | '+' :: r => (false, r)
    | '-' :: r => (true, r)
    | _ => (false, t)
  if "Infinity".toList.isPrefixOf r then (if neg then .negInf else .posInf)
  else
    let (intD, r1) := r.span isDigit
    let (fracD, r2) :=
      match r1 with
      | '.' :: rest => rest.span isDigit
      | _ => (([] : List Char), r1)
    if intD = [] ∧ fracD = [] then .nan
    else
      let exp : Int :=
        match r2 with
        | 'e' :: rest => expPre rest
        | 'E' :: rest => expPre rest
        | _ => 0
      let q := decToRat intD fracD exp
      .num (if neg then -q else q)
where
  /-- Longest-prefix signed exponent; zero when no digits follow. -/
  expPre (l : List Char) : Int :=
    let (sgn, r) :=
      match l with
      | '+' :: r => ((1 : Int), r)
      | '-' :: r => ((-1 : Int), r)
      | _ => ((1 : Int), l)
    let digs := r.takeWhile isDigit
    if digs = [] then 0 else sgn * decValue digs

/-! ## Decoder data model (`parseProtocol`'s result record) -/

/-- The `machineInfo` sub-record. -/
structure MachineInfo where
  model : Option (List Char)
  serialNumber : Option (List Char)
  deriving DecidableEq, Repr

/-- The `sampleInfo` sub-record (all fields absent when the section is). -/
structure SampleInfo where
  recordType : Option (List Char)
  analysisTime : Option (List Char)
  sampleId : Option (List Char)
  samplePosition : Option (List Char)
  sampleTypeCode : Option JSNum
  sampleType : Option (List Char)
  deriving DecidableEq, Repr

/-- The empty `sampleInfo` produced when the message has no `I` section. -/
def SampleInfo.empty : SampleInfo := ⟨none, none, none, none, none, none⟩

/-- One entry of the `results` map. -/
structure ResultEntry where
  value : JSNum
  unit : List Char
  interpretation : Option (List Char)
  deriving DecidableEq, Repr

/-- The decoded message record returned by `parseProtocol`. -/
structure DecodedResult where
  machineInfo : MachineInfo
  sampleInfo : SampleInfo
  results : List (List Char × ResultEntry)
  raw : List Char
  receivedAt : List Char
  deriving DecidableEq, Repr

/-! ## Section extraction (the decoder's three regex matches) -/

/-- Match of the single-line machine regex: the first occurrence of the
opening tag that is followed, with no intervening newline, by the closing
tag; the group is everything in between.  (The dot of the source regex does
not match a newline, so a tag pair spanning lines is skipped and the search
resumes one character further on.) -/
def extractM : List Char → Option (List Char)
  | [] => none
  | c :: cs =>
    if "<M>".toList.isPrefixOf (c :: cs) then
      let rest := cs.drop 2
      match findSub "</M>".toList rest with
      | none => none
      | some j =>
        if '\n' ∈ rest.take j then extractM cs else some (rest.take j)
    else extractM cs

/-- Match of a multiline section regex (the `I` and `R` sections): content
between the first opening tag and the first closing tag after it, with
surrounding whitespace stripped (the greedy whitespace groups flanking the
lazy content group). -/
def extractSection (openT closeT l : List Char) : Option (List Char) :=
  match findSub openT l with
  | none => none
  | some i =>
    let rest := l.drop (i + openT.length)
    match findSub closeT rest with
    | none => none
    | some j => some (trimWS (rest.take j))

/-! ## Decoder -/

/-- The fixed sample-type lookup table (`typeMap` in the source); property
lookup converts the number to its canonical string, so only the exact
values 0–3 hit an entry. -/
def typeMapLookup : JSNum → Option (List Char)
  | .num q =>
    if q = 0 then some "whole_blood".toList
    else if q = 1 then some "quality_control".toList
    else if q = 2 then some "calibration".toList
    else if q = 3 then some "diluted".toList
    else none
  | _ => none

/-- `typeMap[Number(parts[4])] || "unknown"` (all table labels are truthy). -/
def typeLabel (n : JSNum) : List Char :=
  (typeMapLookup n).getD "unknown".toList

/-- The key of the analyte that receives a clinical interpretation. -/
def hbKey : List Char := "HbA1c".toList

/-- The interpretation chain
`v < 5.7 ? "Normal" : v < 6.5 ? "Prediabetes" : "Diabetes"`. -/
def interpOf (v : JSNum) : List Char :=
  if jsLtQ v (5.7 : ℚ) then "Normal".toList
  else if jsLtQ v (6.5 : ℚ) then "Prediabetes".toList
  else "Diabetes".toList

/-- JavaScript object-property assignment into the `results` map: an
existing key is overwritten in place, a new key is appended. -/
def insertEntry (m : List (List Char × ResultEntry)) (k : List Char)
    (e : ResultEntry) : List (List Char × ResultEntry) :=
  if (List.lookup k m).isSome then
    m.map (fun p => if p.1 = k then (k, e) else p)
  else m ++ [(k, e)]

/-- One iteration of the results-section `forEach`: split at the bars, skip
the line unless both the key and the value halves are present and non-empty
(JavaScript truthiness of strings), otherwise store the parsed value with
the fixed `%` unit. -/
def buildStep (acc : List (List Char × ResultEntry)) (line : List Char) :
    List (List Char × ResultEntry) :=
  match splitOnChar '|' line with
  | k :: v :: _ =>
    if k = [] ∨ v = [] then acc
    else insertEntry acc k ⟨jsParseFloat v, "%".toList, none⟩
  | _ => acc

/-- The whole results-section pass: the body is split at newlines, each
line trimmed, blank lines dropped, and the remaining lines folded through
`buildStep`. -/
def buildResults (body : List Char) : List (List Char × ResultEntry) :=
  (((splitOnChar '\n' body).map trimWS).filter (· ≠ [])).foldl buildStep []

/-- The clinical-interpretation pass: when an `HbA1c` entry exists, its
interpretation is set from its own value; nothing else changes. -/
def applyInterpretation (rs : List (List Char × ResultEntry)) :
    List (List Char × ResultEntry) :=
  if (List.lookup hbKey rs).isSome then
    rs.map (fun p =>
      if p.1 = hbKey then (p.1, ⟨p.2.value, p.2.unit, some (interpOf p.2.value)⟩)
      else p)
  else rs

/-- The machine-info pass of `parseProtocol`: the single-line `M` section,
split at the bar, both halves trimmed; an absent section leaves both fields
absent. -/
def machineInfoOf (clean : List Char) : MachineInfo :=
  match extractM clean with
  | none => ⟨none, none⟩
  | some g =>
    let parts := splitOnChar '|' g
    ⟨(parts[0]?).map trimWS, (parts[1]?).map trimWS⟩

/-- The sample-info pass of `parseProtocol`: the `I` section trimmed and
split at the bars into five positional fields; missing trailing fields stay
absent; the fifth field is converted by `Number(...)` and mapped through
the sample-type table. -/
def sampleInfoOf (clean : List Char) : SampleInfo :=
  match extractSection "<I>".toList "</I>".toList clean with
  | none => SampleInfo.empty
  | some body =>
    let parts := splitOnChar '|' (trimWS body)
    ⟨parts[0]?, parts[1]?, parts[2]?, parts[3]?,
      some (jsNumber parts[4]?), some (typeLabel (jsNumber parts[4]?))⟩

/-- The results pass of `parseProtocol` before interpretation: the `R`
section's lines folded through `buildStep`; an absent section gives an
empty map. -/
def resultsOf (clean : List Char) : List (List Char × ResultEntry) :=
  match extractSection "<R>".toList "</R>".toList clean with
  | none => []
  | some body => buildResults body

/-- The protocol decoder `parseProtocol`, section by section as in the
source; `now` stands for the wall-clock `receivedAt` timestamp. -/
def parseProtocol (raw now : List Char) : DecodedResult :=
  let clean := normalizeNewlines raw
  { machineInfo := machineInfoOf clean
    sampleInfo := sampleInfoOf clean
    results := applyInterpretation (resultsOf clean)
    raw := raw
    receivedAt := now }

/-! ## Framer (the `_consumeChar` state machine) -/

/-- The framer's two states (`"IDLE"` and `"RECEIVING"` in the source). -/
inductive FramerState
  | IDLE
  | RECEIVING
  deriving DecidableEq, Repr

/-- A framer configuration: state plus `messageBuffer`. -/
abbrev FrSt := FramerState × List Char

/-- The start delimiter. -/
def startDelim : List Char := "<SEND>".toList

/-- The end delimiter. -/
def endDelim : List Char := "</SEND>".toList

/-- The freshly constructed framer: idle, empty buffer. -/
def initFramer : FrSt := (.IDLE, [])

/-- One step of `_consumeChar`: append the character, detect the start
delimiter (resetting the buffer to exactly the delimiter and returning
early), detect the end delimiter (emitting the buffer and clearing it),
then apply the 100,000-character overflow protection. -/
def consumeChar (s : FrSt) (c : Char) : FrSt × Option (List Char) :=
  let buf := s.2 ++ [c]
  if s.1 = .IDLE ∧ containsSub startDelim buf = true then
    ((.RECEIVING, startDelim), none)
  else
    let next : FrSt × Option (List Char) :=
      if s.1 = .RECEIVING ∧ containsSub endDelim buf = true then
        ((.IDLE, []), some buf)
      else ((s.1, buf), none)
    if next.1.2.length > 100000 then ((.IDLE, []), next.2) else next

/-- Feed a character list one character at a time, collecting every
emitted complete message in order (`_onData`'s per-character loop). -/
def runChars (s : FrSt) : List Char → FrSt × List (List Char)
  | [] => (s, [])
  | c :: cs =>
    let step := consumeChar s c
    let rest := runChars step.1 cs
    (rest.1, step.2.toList ++ rest.2)

/-- Feed a sequence of chunks (successive `_onData` calls on one
instance). -/
def feedChunks (s : FrSt) : List (List Char) → FrSt × List (List Char)
  | [] => (s, [])
  | ch :: rest =>
    let first := runChars s ch
    let later := feedChunks first.1 rest
    (later.1, first.2 ++ later.2)

/-! ## Event pipeline (`_handleCompleteMessage`) -/

/-- An externally visible event of the interface. -/
inductive Event
  | results (d : DecodedResult)
  | failure (e : List Char)
  deriving DecidableEq, Repr

/-- `_handleCompleteMessage` over an arbitrary decoder: a successful decode
emits a `results` event, a raised decode error is caught and surfaced as a
distinct failure event. -/
def handleCompleteMessage (dec : List Char → Except (List Char) DecodedResult)
    (msg : List Char) : Event :=
  match dec msg with
  | .ok d => .results d
  | .error e => .failure e

/-- The full per-character pipeline: framing plus synchronous decode of
each completed message. -/
def processChars (dec : List Char → Except (List Char) DecodedResult)
    (s : FrSt) : List Char → FrSt × List Event
  | [] => (s, [])
  | c :: cs =>
    let step := consumeChar s c
    let rest := processChars dec step.1 cs
    (rest.1, (step.2.map (handleCompleteMessage dec)).toList ++ rest.2)

/-! ## Substring-containment infrastructure -/

/-- `containsSub` agrees with list-infix containment. -/
theorem containsSub_iff {pat l : List Char} :
    containsSub pat l = true ↔ pat <:+: l := by
  unfold containsSub
  rw [List.any_eq_true]
  constructor
  · rintro ⟨i, _, hp⟩
    rw [ List.isPrefixOf_iff_prefix] at hp
    exact hp.isInfix.trans (List.drop_suffix i l).isInfix
  · rintro ⟨s, t, rfl⟩
    refine ⟨s.length, List.mem_range.mpr ?_, ?_⟩
    · simp only [List.length_append]
      omega
    · rw [ List.isPrefixOf_iff_prefix, List.append_assoc, List.drop_left]
      exact ⟨t, rfl⟩

/-- A pattern longer than the text never occurs in it. -/
theorem not_containsSub_of_length_lt {pat l : List Char}
    (h : l.length < pat.length) : containsSub pat l = false := by
  rw [← Bool.not_eq_true, containsSub_iff]
  intro hinf
  exact absurd hinf.length_le (by omega)

/-- A pattern holding a character absent from the text never occurs in it. -/
theorem not_containsSub_of_all_ne {pat l : List Char} {c : Char}
    (hc : c ∈ pat) (h : ∀ x ∈ l, x ≠ c) : containsSub pat l = false := by
  rw [← Bool.not_eq_true, containsSub_iff]
  intro hinf
  exact h c (hinf.subset hc) rfl

/-- Occurrence is monotone under extension of the text. -/
theorem containsSub_mono {pat l₁ l₂ : List Char} (h : l₁ <:+: l₂)
    (hc : containsSub pat l₁ = true) : containsSub pat l₂ = true :=
  containsSub_iff.mpr ((containsSub_iff.mp hc).trans h)

/-- A suffix occurrence. -/
theorem containsSub_of_suffix {pat l : List Char} (h : pat <:+ l) :
    containsSub pat l = true :=
  containsSub_iff.mpr h.isInfix

/-- When a single appended character first makes a non-empty pattern occur,
the occurrence is at the very end. -/
theorem suffix_of_new_occurrence {pat l : List Char} {c : Char}
    (hnew : containsSub pat (l ++ [c]) = true)
    (hold : containsSub pat l = false) :
    pat <:+ (l ++ [c]) := by
  obtain ⟨s, t, heq⟩ := containsSub_iff.mp hnew
  rcases List.eq_nil_or_concat t with rfl | ⟨t', a, rfl⟩
  · exact ⟨s, by simpa using heq⟩
  · exfalso
    rw [List.concat_eq_append] at heq
    have h1 : s ++ pat ++ t' = l := by
      have := congrArg List.dropLast heq
      rwa [show s ++ pat ++ (t' ++ [a]) = (s ++ pat ++ t') ++ [a] by simp,
        List.dropLast_concat, List.dropLast_concat] at this
    rw [← Bool.not_eq_true, containsSub_iff] at hold
    exact hold ⟨s, t', h1⟩

/-- How many positions of the text start an occurrence of the pattern. -/
def countOccur (pat l : List Char) : Nat :=
  ((List.range (l.length + 1)).filter (fun i => pat.isPrefixOf (l.drop i))).length

/-- When a single appended character first makes a non-empty pattern occur,
it occurs exactly once. -/
theorem countOccur_eq_one {pat l : List Char} {c : Char} (hne : pat ≠ [])
    (hnew : containsSub pat (l ++ [c]) = true)
    (hold : containsSub pat l = false) :
    countOccur pat (l ++ [c]) = 1 := by
  obtain ⟨s, hs⟩ := suffix_of_new_occurrence hnew hold
  have hlen : s.length + pat.length = l.length + 1 := by
    have := congrArg List.length hs
    simp only [List.length_append, List.length_cons, List.length_nil] at this
    omega
  have hpatpos : 0 < pat.length := List.length_pos.mpr hne
  have hkey : ∀ i ∈ List.range ((l ++ [c]).length + 1),
      (pat.isPrefixOf ((l ++ [c]).drop i)) = (i == s.length) := by
    intro i _
    rcases Nat.lt_trichotomy i s.length with hlt | rfl | hgt
    · rw [Bool.eq_iff_iff]
      simp only [beq_iff_eq]
      constructor
      · intro hp
        exfalso
        rw [ List.isPrefixOf_iff_prefix] at hp
        have hi_le : i ≤ l.length := by omega
        have hdrop : (l ++ [c]).drop i = l.drop i ++ [c] := by
          rw [List.drop_append_eq_append_drop, Nat.sub_eq_zero_of_le hi_le, List.drop_zero]
        rw [hdrop] at hp
        have hlen2 : pat.length ≤ (l.drop i).length := by
          simp only [List.length_drop]
          omega
        have hp2 : pat <+: l.drop i := by
          have := List.prefix_iff_eq_take.mp hp
          rw [List.take_append_eq_append_take,
            Nat.sub_eq_zero_of_le hlen2, List.take_zero, List.append_nil] at this
          rw [this]
          exact List.take_prefix _ _
        rw [← Bool.not_eq_true, containsSub_iff] at hold
        exact hold (hp2.isInfix.trans (List.drop_suffix i l).isInfix)
      · omega
    · rw [Bool.eq_iff_iff]
      simp only [beq_self_eq_true, iff_true]
      rw [ List.isPrefixOf_iff_prefix, ← hs, List.drop_left]
    · rw [Bool.eq_iff_iff]
      simp only [beq_iff_eq]
      constructor
      · intro hp
        exfalso
        rw [ List.isPrefixOf_iff_prefix] at hp
        have := hp.length_le
        simp only [List.length_drop, List.length_append, List.length_singleton] at this
        omega
      · omega
  unfold countOccur
  rw [List.filter_congr hkey, ← List.countP_eq_length_filter]
  have : List.countP (fun i => i == s.length) (List.range ((l ++ [c]).length + 1)) =
      List.count s.length (List.range ((l ++ [c]).length + 1)) := rfl
  rw [this]
  exact List.count_eq_one_of_mem (List.nodup_range _)
    (List.mem_range.mpr (by simp only [List.length_append]; omega))

/-- An occurrence in a concatenation lies in the left part, in the right
part, or crosses the boundary with a non-empty piece on each side. -/
theorem infix_append_cases {pat l₁ l₂ : List Char} (h : pat <:+: l₁ ++ l₂) :
    pat <:+: l₁ ∨ pat <:+: l₂ ∨
      ∃ a b, a ++ b = pat ∧ a ≠ [] ∧ b ≠ [] ∧ a <:+ l₁ ∧ b <+: l₂ := by
  induction l₁ with
  | nil => exact Or.inr (Or.inl (by simpa using h))
  | cons x xs ih =>
    rw [List.cons_append, List.infix_cons_iff, ← List.cons_append] at h
    rcases h with hpre | htail
    · by_cases hlen : pat.length ≤ (x :: xs).length
      · left
        have heq := List.prefix_iff_eq_take.mp hpre
        rw [List.take_append_eq_append_take, Nat.sub_eq_zero_of_le hlen,
          List.take_zero, List.append_nil] at heq
        exact (heq ▸ List.take_prefix _ _).isInfix
      · right; right
        obtain ⟨t, ht⟩ := hpre
        have hxs : pat.take (x :: xs).length = x :: xs := by
          have := congrArg (List.take (x :: xs).length) ht
          rwa [List.take_append_eq_append_take,
            Nat.sub_eq_zero_of_le (by omega), List.take_zero, List.append_nil,
            List.take_left] at this
        refine ⟨x :: xs, pat.drop (x :: xs).length, ?_, by simp, ?_,
          List.suffix_refl _, ?_⟩
        · have h2 := List.take_append_drop (x :: xs).length pat
          rw [hxs] at h2
          exact h2
        · intro hd
          have := congrArg List.length hd
          simp only [List.length_drop, List.length_nil] at this
          omega
        · have := congrArg (List.drop (x :: xs).length) ht
          rw [List.drop_append_eq_append_drop,
            Nat.sub_eq_zero_of_le (by omega), List.drop_zero, List.drop_left] at this
          exact ⟨t, this⟩
    · rcases ih htail with h1 | h2 | ⟨a, b, hab, ha, hb, hsuf, hpre2⟩
      · exact Or.inl (h1.trans (List.suffix_cons x xs).isInfix)
      · exact Or.inr (Or.inl h2)
      · exact Or.inr (Or.inr ⟨a, b, hab, ha, hb,
          hsuf.trans (List.suffix_cons x xs), hpre2⟩)

/-- The start delimiter does not occur in noise characters followed by a
proper piece of the start delimiter. -/
theorem noStart (m k : Nat) (hk : k ≤ 5) :
    containsSub startDelim (List.replicate m 'a' ++ startDelim.take k) = false := by
  rw [← Bool.not_eq_true, containsSub_iff]
  intro h
  rcases infix_append_cases h with h1 | h2 | ⟨a, b, hab, ha, _, hsuf, _⟩
  · have hm := h1.subset (show '<' ∈ startDelim by decide)
    rw [List.mem_replicate] at hm
    exact absurd hm.2 (by decide)
  · have hle := h2.length_le
    rw [List.length_take] at hle
    have h6 : startDelim.length = 6 := by decide
    omega
  · have hsub : a ⊆ List.replicate m 'a' := hsuf.subset
    obtain ⟨x, hx⟩ := List.exists_mem_of_ne_nil a ha
    have hx2 := List.mem_replicate.mp (hsub hx)
    have : 'a' ∈ startDelim := hab ▸ List.mem_append_left b (hx2.2 ▸ hx)
    exact absurd this (by decide)

/-- The end delimiter does not occur in the start delimiter followed by
noise characters and a proper piece of the end delimiter. -/
theorem noEnd (m k : Nat) (hm : 1 ≤ m) (hk : k ≤ 6) :
    containsSub endDelim
      ((startDelim ++ List.replicate m 'a') ++ endDelim.take k) = false := by
  rw [← Bool.not_eq_true, containsSub_iff]
  intro h
  rcases infix_append_cases h with h1 | h2 | ⟨a, b, hab, ha, _, hsuf, _⟩
  · have hm2 := h1.subset (show '/' ∈ endDelim by decide)
    rcases List.mem_append.mp hm2 with hm3 | hm3
    · exact absurd hm3 (by decide)
    · rw [List.mem_replicate] at hm3
      exact absurd hm3.2 (by decide)
  · have hle := h2.length_le
    rw [List.length_take] at hle
    have h7 : endDelim.length = 7 := by decide
    omega
  · have hmem : 'a' ∈ a := by
      rcases List.suffix_or_suffix_of_suffix hsuf
        (List.suffix_append startDelim (List.replicate m 'a')) with hc | hc
      · obtain ⟨x, hx⟩ := List.exists_mem_of_ne_nil a ha
        have hx2 := List.mem_replicate.mp (hc.subset hx)
        exact hx2.2 ▸ hx
      · exact hc.subset (List.mem_replicate.mpr ⟨by omega, rfl⟩)
    have : 'a' ∈ endDelim := hab ▸ List.mem_append_left b hmem
    exact absurd this (by decide)

/-! ## Framer step and run equations -/

/-- Idle step that does not complete the start delimiter and stays under
the ceiling: the character is appended, nothing else happens. -/
theorem consumeChar_idle_nostart {buf : List Char} {c : Char}
    (h : containsSub startDelim (buf ++ [c]) = false)
    (hlen : (buf ++ [c]).length ≤ 100000) :
    consumeChar (.IDLE, buf) c = ((.IDLE, buf ++ [c]), none) := by
  simp only [List.length_append, List.length_singleton] at hlen
  simp [consumeChar, h]
  omega

/-- Idle step that completes the start delimiter: the buffer is reset to
exactly the delimiter, no message is emitted, and the overflow check is
skipped (the early return). -/
theorem consumeChar_idle_start {buf : List Char} {c : Char}
    (h : containsSub startDelim (buf ++ [c]) = true) :
    consumeChar (.IDLE, buf) c = ((.RECEIVING, startDelim), none) := by
  simp [consumeChar, h]

/-- Receiving step that does not complete the end delimiter and stays
under the ceiling. -/
theorem consumeChar_recv_noend {buf : List Char} {c : Char}
    (h : containsSub endDelim (buf ++ [c]) = false)
    (hlen : (buf ++ [c]).length ≤ 100000) :
    consumeChar (.RECEIVING, buf) c = ((.RECEIVING, buf ++ [c]), none) := by
  simp only [List.length_append, List.length_singleton] at hlen
  simp [consumeChar, h]
  omega

/-- Receiving step that does not complete the end delimiter and overflows:
overflow protection resets the framer, emitting nothing. -/
theorem consumeChar_recv_noend_over {buf : List Char} {c : Char}
    (h : containsSub endDelim (buf ++ [c]) = false)
    (hlen : 100000 < (buf ++ [c]).length) :
    consumeChar (.RECEIVING, buf) c = ((.IDLE, []), none) := by
  simp only [List.length_append, List.length_singleton] at hlen
  simp [consumeChar, h]
  omega

/-- Receiving step that completes the end delimiter: the buffer is emitted
as a complete message and the framer resets. -/
theorem consumeChar_recv_end {buf : List Char} {c : Char}
    (h : containsSub endDelim (buf ++ [c]) = true) :
    consumeChar (.RECEIVING, buf) c = ((.IDLE, []), some (buf ++ [c])) := by
  simp [consumeChar, h]

/-- Splitting a character run at any point composes. -/
theorem runChars_append (s : FrSt) (x y : List Char) :
    runChars s (x ++ y) =
      ((runChars (runChars s x).1 y).1,
        (runChars s x).2 ++ (runChars (runChars s x).1 y).2) := by
  induction x generalizing s with
  | nil => simp [runChars]
  | cons c cs ih => simp [runChars, ih]

/-- Feeding chunks one at a time is the same as feeding their
concatenation (the framer state survives chunk boundaries). -/
theorem feedChunks_eq_runChars_join (s : FrSt) (chunks : List (List Char)) :
    feedChunks s chunks = runChars s chunks.flatten := by
  induction chunks generalizing s with
  | nil => simp [feedChunks, runChars]
  | cons ch rest ih => simp [feedChunks, List.flatten, runChars_append, ih]

/-- An idle segment: while no prefix of the input completes the start
delimiter and the buffer stays under the ceiling, the framer just
accumulates. -/
theorem runChars_idle_seg (rest : List Char) (buf : List Char)
    (hno : ∀ j ≤ rest.length, containsSub startDelim (buf ++ rest.take j) = false)
    (hlen : buf.length + rest.length ≤ 100000) :
    runChars (.IDLE, buf) rest = ((.IDLE, buf ++ rest), []) := by
  induction rest generalizing buf with
  | nil => simp [runChars]
  | cons c cs ih =>
    have h1 : containsSub startDelim (buf ++ [c]) = false := by
      have := hno 1 (by simp)
      simpa using this
    have hl1 : (buf ++ [c]).length ≤ 100000 := by
      simp only [List.length_append, List.length_cons, List.length_nil] at *
      omega
    rw [runChars, consumeChar_idle_nostart h1 hl1,
      ih (buf ++ [c]) ?_ ?_]
    · simp
    · intro j hj
      have := hno (j + 1) (by simp only [List.length_cons]; omega)
      simpa [List.take_succ_cons, List.append_assoc] using this
    · simp only [List.length_append, List.length_cons, List.length_nil] at *
      omega

/-- A receiving segment: while no prefix of the input completes the end
delimiter and the buffer stays under the ceiling, the framer just
accumulates. -/
theorem runChars_recv_seg (rest : List Char) (buf : List Char)
    (hno : ∀ j ≤ rest.length, containsSub endDelim (buf ++ rest.take j) = false)
    (hlen : buf.length + rest.length ≤ 100000) :
    runChars (.RECEIVING, buf) rest = ((.RECEIVING, buf ++ rest), []) := by
  induction rest generalizing buf with
  | nil => simp [runChars]
  | cons c cs ih =>
    have h1 : containsSub endDelim (buf ++ [c]) = false := by
      have := hno 1 (by simp)
      simpa using this
    have hl1 : (buf ++ [c]).length ≤ 100000 := by
      simp only [List.length_append, List.length_cons, List.length_nil] at *
      omega
    rw [runChars, consumeChar_recv_noend h1 hl1,
      ih (buf ++ [c]) ?_ ?_]
    · simp
    · intro j hj
      have := hno (j + 1) (by simp only [List.length_cons]; omega)
      simpa [List.take_succ_cons, List.append_assoc] using this
    · simp only [List.length_append, List.length_cons, List.length_nil] at *
      omega

/-- Feeding a fresh framer exactly the start delimiter ends in the
receiving state with the buffer holding exactly the delimiter. -/
theorem runChars_init_start : runChars initFramer startDelim =
    ((.RECEIVING, startDelim), []) := by decide

/-- From the receiving state just after the start delimiter, an input whose
only end-delimiter occurrence is at its very end is accumulated and then
emitted whole, provided the whole message respects the overflow ceiling. -/
theorem runChars_recv_message (mid : List Char)
    (hend : containsSub endDelim ((startDelim ++ (mid ++ endDelim)).dropLast) = false)
    (hlen : (startDelim ++ (mid ++ endDelim)).length ≤ 100001) :
    runChars (.RECEIVING, startDelim) (mid ++ endDelim) =
      ((.IDLE, []), [startDelim ++ (mid ++ endDelim)]) := by
  have hne : mid ++ endDelim ≠ [] := by
    intro h
    have := congrArg List.length h
    simp [endDelim] at this
  set rest := mid ++ endDelim with hrestdef
  have hdecomp : rest.dropLast ++ [rest.getLast hne] = rest :=
    List.dropLast_append_getLast hne
  have hmsgdrop : (startDelim ++ rest).dropLast = startDelim ++ rest.dropLast := by
    conv_lhs => rw [← hdecomp]
    rw [← List.append_assoc, List.dropLast_concat]
  have hno : ∀ j ≤ rest.dropLast.length,
      containsSub endDelim (startDelim ++ rest.dropLast.take j) = false := by
    intro j _
    rw [← Bool.not_eq_true]
    intro hc
    have hpref : startDelim ++ rest.dropLast.take j <+: startDelim ++ rest.dropLast := by
      obtain ⟨t, ht⟩ := List.take_prefix j rest.dropLast
      exact ⟨t, by rw [List.append_assoc, ht]⟩
    have h2 := containsSub_mono hpref.isInfix hc
    rw [← hmsgdrop] at h2
    rw [h2] at hend
    exact absurd hend (by decide)
  have hlen2 : startDelim.length + rest.dropLast.length ≤ 100000 := by
    have h1 : rest.dropLast.length = rest.length - 1 := List.length_dropLast rest
    have h2 : (startDelim ++ rest).length = 6 + rest.length := by
      simp [startDelim]
      omega
    have h3 : rest.length ≠ 0 := by
      intro h0
      exact hne (List.length_eq_zero.mp h0)
    rw [h2] at hlen
    have h4 : startDelim.length = 6 := by decide
    omega
  have hseg := runChars_recv_seg rest.dropLast startDelim hno hlen2
  have hlast : containsSub endDelim ((startDelim ++ rest.dropLast) ++ [rest.getLast hne]) = true := by
    rw [List.append_assoc, hdecomp]
    exact containsSub_of_suffix
      ((List.suffix_append mid endDelim).trans (List.suffix_append startDelim rest))
  conv_lhs => rw [← hdecomp]
  rw [runChars_append, hseg]
  simp only [runChars, consumeChar_recv_end hlast]
  simp [List.append_assoc, hdecomp]

/-- C4 (amended): for every complete wire-format message text of length at
most 100,001 characters — beginning with the start delimiter and ending at
the first occurrence of the end delimiter — and for every way of splitting
it into chunks at arbitrary character boundaries (including inside a
delimiter), feeding the chunks in order to a fresh framer emits exactly one
complete message equal to the unsplit original. -/
theorem framer_chunked_reassembly (mid : List Char) (chunks : List (List Char))
    (hjoin : chunks.flatten = startDelim ++ (mid ++ endDelim))
    (hend : containsSub endDelim ((startDelim ++ (mid ++ endDelim)).dropLast) = false)
    (hlen : (startDelim ++ (mid ++ endDelim)).length ≤ 100001) :
    feedChunks initFramer chunks =
      ((.IDLE, []), [startDelim ++ (mid ++ endDelim)]) := by
  rw [feedChunks_eq_runChars_join, hjoin, runChars_append, runChars_init_start]
  simp [runChars_recv_message mid hend hlen]

/-- Witness for the chunked-reassembly theorem: the message
`<SEND>x</SEND>` split into three chunks, two of which cut a delimiter. -/
theorem framer_chunked_reassembly_witness :
    ([['<', 'S'], ['E', 'N', 'D', '>', 'x', '<', '/', 'S'],
        ['E', 'N', 'D', '>']] : List (List Char)).flatten =
      startDelim ++ (['x'] ++ endDelim) ∧
    containsSub endDelim ((startDelim ++ (['x'] ++ endDelim)).dropLast) = false ∧
    (startDelim ++ (['x'] ++ endDelim)).length ≤ 100001 ∧
    feedChunks initFramer
        [['<', 'S'], ['E', 'N', 'D', '>', 'x', '<', '/', 'S'], ['E', 'N', 'D', '>']] =
      ((.IDLE, []), [startDelim ++ (['x'] ++ endDelim)]) :=
  ⟨by decide, by decide, by decide,
    framer_chunked_reassembly ['x'] _ (by decide) (by decide) (by decide)⟩

/-- A complete wire-format message one character beyond what the overflow
ceiling admits: 100,002 characters. -/
def longMsg : List Char := startDelim ++ (List.replicate 99989 'a' ++ endDelim)

/-- C4 (counterexample): `longMsg` is a complete wire-format message text —
it begins with the start delimiter and ends at the first occurrence of the
end delimiter — yet a fresh framer fed the whole text (one chunk, no
splitting at all) emits zero complete messages: overflow protection discards
it one character before its end delimiter completes. -/
theorem framer_long_message_dropped :
    startDelim <+: longMsg ∧ endDelim <:+ longMsg ∧
    containsSub endDelim longMsg.dropLast = false ∧
    longMsg.length = 100002 ∧
    runChars initFramer longMsg = ((.IDLE, ['>']), []) := by
  have he6 : endDelim = "</SEND".toList ++ ['>'] := by decide
  have he5 : endDelim = "</SEN".toList ++ ['D', '>'] := by decide
  have ht6 : "</SEND".toList = endDelim.take 6 := by decide
  have ht5 : "</SEN".toList = endDelim.take 5 := by decide
  have hsplit : longMsg =
      ((startDelim ++ List.replicate 99989 'a') ++ "</SEND".toList) ++ ['>'] := by
    rw [longMsg]
    conv_lhs => rw [he6]
    simp only [List.append_assoc]
  refine ⟨⟨_, rfl⟩, ?_, ?_, ?_, ?_⟩
  · exact (List.suffix_append _ endDelim).trans (List.suffix_append startDelim _)
  · rw [hsplit, List.dropLast_concat, ht6]
    exact noEnd 99989 6 (by omega) (by omega)
  · rw [longMsg, List.length_append, List.length_append, List.length_replicate]
    have h1 : startDelim.length = 6 := by decide
    have h2 : endDelim.length = 7 := by decide
    omega
  · -- the run: start transition, long accumulation, overflow, stray character
    have hseg : runChars (.RECEIVING, startDelim)
        (List.replicate 99989 'a' ++ "</SEN".toList) =
        ((.RECEIVING, startDelim ++ (List.replicate 99989 'a' ++ "</SEN".toList)), []) := by
      apply runChars_recv_seg
      · intro j hj
        rcases Nat.eq_zero_or_pos j with rfl | hpos
        · rw [List.take_zero, List.append_nil]
          decide
        · have htake : (List.replicate 99989 'a' ++ "</SEN".toList).take j =
              List.replicate (j ⊓ 99989) 'a' ++ endDelim.take ((j - 99989) ⊓ 5) := by
            rw [List.take_append_eq_append_take, List.take_replicate, ht5,
              List.take_take]
            rw [List.length_replicate]
          rw [htake, ← List.append_assoc]
          exact noEnd (j ⊓ 99989) ((j - 99989) ⊓ 5) (by omega) (by omega)
      · rw [List.length_append, List.length_replicate]
        have h1 : startDelim.length = 6 := by decide
        have h2 : ("</SEN".toList : List Char).length = 5 := by decide
        omega
    have hstepD : consumeChar
        (.RECEIVING, startDelim ++ (List.replicate 99989 'a' ++ "</SEN".toList)) 'D' =
        ((.IDLE, []), none) := by
      apply consumeChar_recv_noend_over
      · have hb : (startDelim ++ (List.replicate 99989 'a' ++ "</SEN".toList)) ++ ['D'] =
            (startDelim ++ List.replicate 99989 'a') ++ "</SEND".toList := by
          have : "</SEN".toList ++ ['D'] = "</SEND".toList := by decide
          simp only [← this, List.append_assoc]
        rw [hb, ht6]
        exact noEnd 99989 6 (by omega) (by omega)
      · rw [List.length_append, List.length_append, List.length_append,
          List.length_replicate]
        have h1 : startDelim.length = 6 := by decide
        have h2 : ("</SEN".toList : List Char).length = 5 := by decide
        have h3 : (['D'] : List Char).length = 1 := rfl
        omega
    have hstepGt : consumeChar (.IDLE, ([] : List Char)) '>' =
        ((.IDLE, ['>']), none) := by
      apply consumeChar_idle_nostart
      · decide
      · decide
    have hrun2 : runChars (.RECEIVING, startDelim)
        (List.replicate 99989 'a' ++ endDelim) = ((.IDLE, ['>']), []) := by
      conv_lhs =>
        rw [he5, show List.replicate 99989 'a' ++ ("</SEN".toList ++ ['D', '>']) =
          (List.replicate 99989 'a' ++ "</SEN".toList) ++ ['D', '>'] from by
            rw [List.append_assoc]]
      rw [runChars_append, hseg]
      simp only [runChars, hstepD, hstepGt]
      rfl
    rw [longMsg, runChars_append, runChars_init_start]
    simp only [hrun2]
    rfl

/-- Idle step that does not complete the start delimiter and overflows:
overflow protection resets the framer, emitting nothing. -/
theorem consumeChar_idle_nostart_over {buf : List Char} {c : Char}
    (h : containsSub startDelim (buf ++ [c]) = false)
    (hlen : 100000 < (buf ++ [c]).length) :
    consumeChar (.IDLE, buf) c = ((.IDLE, []), none) := by
  simp only [List.length_append, List.length_singleton] at hlen
  simp [consumeChar, h]
  omega

/-- C5 (amended): whenever appending one character makes the buffer exceed
the 100,000-character ceiling and the appended character does not
simultaneously complete a start delimiter in the idle state or an end
delimiter in the receiving state, the framer resets to idle with a cleared
buffer and emits no message (and raises nothing — the step is total);
delimiter detection, which runs first, takes priority in the excluded
cases.  From the reset state a subsequent start delimiter is recognised
normally. -/
theorem overflow_reset_behavior (st : FramerState) (buf : List Char) (c : Char)
    (hover : 100000 < (buf ++ [c]).length)
    (hs : ¬ (st = FramerState.IDLE ∧ containsSub startDelim (buf ++ [c]) = true))
    (he : ¬ (st = FramerState.RECEIVING ∧ containsSub endDelim (buf ++ [c]) = true)) :
    consumeChar (st, buf) c = ((.IDLE, []), none) ∧
      runChars (.IDLE, []) startDelim = ((.RECEIVING, startDelim), []) := by
  refine ⟨?_, runChars_init_start⟩
  simp only [consumeChar]
  rw [if_neg hs, if_neg he]
  simp only []
  rw [if_pos hover]

/-- Witness for the overflow-reset theorem: a receiving framer holding
100,000 characters receives one more non-delimiter character. -/
theorem overflow_reset_behavior_witness :
    100000 < (List.replicate 100000 'a' ++ ['a']).length ∧
    ¬ (FramerState.RECEIVING = FramerState.IDLE ∧
        containsSub startDelim (List.replicate 100000 'a' ++ ['a']) = true) ∧
    ¬ (FramerState.RECEIVING = FramerState.RECEIVING ∧
        containsSub endDelim (List.replicate 100000 'a' ++ ['a']) = true) ∧
    consumeChar (.RECEIVING, List.replicate 100000 'a') 'a' = ((.IDLE, []), none) := by
  have hrep : List.replicate 100000 'a' ++ ['a'] = List.replicate 100001 'a' := by
    rw [← List.replicate_succ']
  have hall : ∀ x ∈ List.replicate 100001 'a', x ≠ '<' := by
    intro x hx
    rw [List.mem_replicate] at hx
    rw [hx.2]
    decide
  have h1 : 100000 < (List.replicate 100000 'a' ++ ['a']).length := by
    rw [hrep, List.length_replicate]
    omega
  have h2 : ¬ (FramerState.RECEIVING = FramerState.IDLE ∧
      containsSub startDelim (List.replicate 100000 'a' ++ ['a']) = true) := by
    rintro ⟨h, -⟩
    exact FramerState.noConfusion h
  have h3 : ¬ (FramerState.RECEIVING = FramerState.RECEIVING ∧
      containsSub endDelim (List.replicate 100000 'a' ++ ['a']) = true) := by
    rintro ⟨-, hc⟩
    rw [hrep, not_containsSub_of_all_ne (show '<' ∈ endDelim by decide) hall] at hc
    exact Bool.noConfusion hc
  exact ⟨h1, h2, h3, (overflow_reset_behavior .RECEIVING _ 'a' h1 h2 h3).1⟩

/-- C5 (counterexample): a fresh framer fed 99,995 noise characters and
then a full start delimiter.  The final character `>` makes the buffer
100,001 characters long — beyond the ceiling — yet the framer does not
reset: start-delimiter detection runs first and leaves the framer
accumulating with buffer `<SEND>`. -/
theorem overflow_priority_cex :
    (List.replicate 99995 'a' ++ "<SEND".toList).length = 100000 ∧
    ((List.replicate 99995 'a' ++ "<SEND".toList) ++ ['>']).length = 100001 ∧
    consumeChar (.IDLE, List.replicate 99995 'a' ++ "<SEND".toList) '>' =
      ((.RECEIVING, startDelim), none) ∧
    runChars initFramer (List.replicate 99995 'a' ++ startDelim) =
      ((.RECEIVING, startDelim), []) := by
  have hs5 : startDelim = "<SEND".toList ++ ['>'] := by decide
  have hts : "<SEND".toList = startDelim.take 5 := by decide
  have hstep : consumeChar (.IDLE, List.replicate 99995 'a' ++ "<SEND".toList) '>' =
      ((.RECEIVING, startDelim), none) := by
    apply consumeChar_idle_start
    have hb : (List.replicate 99995 'a' ++ "<SEND".toList) ++ ['>'] =
        List.replicate 99995 'a' ++ startDelim := by
      rw [List.append_assoc, ← hs5]
    rw [hb]
    exact containsSub_of_suffix (List.suffix_append _ _)
  refine ⟨?_, ?_, hstep, ?_⟩
  · rw [List.length_append, List.length_replicate]
    have h2 : ("<SEND".toList : List Char).length = 5 := by decide
    omega
  · rw [List.length_append, List.length_append, List.length_replicate]
    have h2 : ("<SEND".toList : List Char).length = 5 := by decide
    have h3 : (['>'] : List Char).length = 1 := rfl
    omega
  · have hseg : runChars (.IDLE, ([] : List Char))
        (List.replicate 99995 'a' ++ "<SEND".toList) =
        ((.IDLE, List.replicate 99995 'a' ++ "<SEND".toList), []) := by
      have := runChars_idle_seg (List.replicate 99995 'a' ++ "<SEND".toList) []
        ?hno ?hlen
      · rwa [List.nil_append] at this
      case hno =>
        intro j _
        rw [List.nil_append, List.take_append_eq_append_take, List.take_replicate,
          hts, List.take_take, List.length_replicate]
        exact noStart (j ⊓ 99995) ((j - 99995) ⊓ 5) (by omega)
      case hlen =>
        rw [List.length_nil, List.length_append, List.length_replicate]
        have h2 : ("<SEND".toList : List Char).length = 5 := by decide
        omega
    have hinput : List.replicate 99995 'a' ++ startDelim =
        (List.replicate 99995 'a' ++ "<SEND".toList) ++ ['>'] := by
      rw [List.append_assoc, ← hs5]
    rw [hinput, runChars_append]
    rw [show initFramer = ((.IDLE, ([] : List Char)) : FrSt) from rfl, hseg]
    simp only [runChars, hstep]
    rfl

/-- C7: whenever the framer leaves the idle state, its buffer is reset to
contain exactly the start delimiter; consequently, for an input stream with
noise bytes before the first start delimiter, the emitted complete message
is exactly the delimited message — all preceding bytes are excluded. -/
theorem leading_bytes_excluded :
    (∀ buf c, (consumeChar (.IDLE, buf) c).1.1 = FramerState.RECEIVING →
        consumeChar (.IDLE, buf) c = ((.RECEIVING, startDelim), none)) ∧
    ∀ junk mid,
      containsSub startDelim ((junk ++ startDelim).dropLast) = false →
      containsSub endDelim ((startDelim ++ (mid ++ endDelim)).dropLast) = false →
      junk.length + 5 ≤ 100000 →
      (startDelim ++ (mid ++ endDelim)).length ≤ 100001 →
      runChars initFramer (junk ++ (startDelim ++ (mid ++ endDelim))) =
        ((.IDLE, []), [startDelim ++ (mid ++ endDelim)]) := by
  constructor
  · intro buf c h
    by_cases hc : containsSub startDelim (buf ++ [c]) = true
    · exact consumeChar_idle_start hc
    · exfalso
      rw [Bool.not_eq_true] at hc
      by_cases hlen : (buf ++ [c]).length ≤ 100000
      · rw [consumeChar_idle_nostart hc hlen] at h
        exact FramerState.noConfusion h
      · rw [consumeChar_idle_nostart_over hc (by omega)] at h
        exact FramerState.noConfusion h
  · intro junk mid h1 h2 h3 h4
    have hs5 : startDelim = "<SEND".toList ++ ['>'] := by decide
    have hdrop : (junk ++ startDelim).dropLast = junk ++ "<SEND".toList := by
      conv_lhs => rw [hs5, ← List.append_assoc]
      exact List.dropLast_concat
    have hseg : runChars (.IDLE, ([] : List Char)) (junk ++ "<SEND".toList) =
        ((.IDLE, junk ++ "<SEND".toList), []) := by
      have := runChars_idle_seg (junk ++ "<SEND".toList) [] ?hno ?hlen
      · rwa [List.nil_append] at this
      case hno =>
        intro j hj
        rw [List.nil_append, ← Bool.not_eq_true]
        intro hcon
        have hpref : (junk ++ "<SEND".toList).take j <+: junk ++ "<SEND".toList :=
          List.take_prefix _ _
        have := containsSub_mono hpref.isInfix hcon
        rw [← hdrop] at this
        rw [this] at h1
        exact Bool.noConfusion h1
      case hlen =>
        rw [List.length_nil, List.length_append]
        have h5 : ("<SEND".toList : List Char).length = 5 := by decide
        omega
    have hstep : consumeChar (.IDLE, junk ++ "<SEND".toList) '>' =
        ((.RECEIVING, startDelim), none) := by
      apply consumeChar_idle_start
      rw [List.append_assoc, ← hs5]
      exact containsSub_of_suffix (List.suffix_append _ _)
    have hinput : junk ++ (startDelim ++ (mid ++ endDelim)) =
        ((junk ++ "<SEND".toList) ++ ['>']) ++ (mid ++ endDelim) := by
      conv_lhs => rw [hs5]
      simp only [List.append_assoc]
    rw [hinput,
      runChars_append initFramer ((junk ++ "<SEND".toList) ++ ['>']) (mid ++ endDelim),
      runChars_append initFramer (junk ++ "<SEND".toList) ['>']]
    rw [show initFramer = ((.IDLE, ([] : List Char)) : FrSt) from rfl, hseg]
    simp only [runChars, hstep]
    simp only [runChars_recv_message mid h2 h4]
    rfl

/-- Witness for the leading-bytes theorem: two noise characters before the
message `<SEND>m</SEND>`. -/
theorem leading_bytes_excluded_witness :
    containsSub startDelim ((['x', 'y'] ++ startDelim).dropLast) = false ∧
    containsSub endDelim ((startDelim ++ (['m'] ++ endDelim)).dropLast) = false ∧
    (['x', 'y'] : List Char).length + 5 ≤ 100000 ∧
    (startDelim ++ (['m'] ++ endDelim)).length ≤ 100001 ∧
    runChars initFramer (['x', 'y'] ++ (startDelim ++ (['m'] ++ endDelim))) =
      ((.IDLE, []), [startDelim ++ (['m'] ++ endDelim)]) :=
  ⟨by decide, by decide, by decide, by decide,
    leading_bytes_excluded.2 ['x', 'y'] ['m'] (by decide) (by decide)
      (by decide) (by decide)⟩

/-! ## The framer invariant -/

/-- The state invariant of the framer: idle buffers never contain the
start delimiter; receiving buffers begin with the start delimiter and do
not contain the end delimiter. -/
def FramerInv : FrSt → Prop
  | (.IDLE, buf) => containsSub startDelim buf = false
  | (.RECEIVING, buf) => startDelim <+: buf ∧ containsSub endDelim buf = false

/-- The invariant holds of the idle state with a cleared buffer. -/
theorem framerInv_idle_nil : FramerInv (.IDLE, []) := by
  show containsSub startDelim [] = false
  decide

/-- The invariant holds of the receiving state holding exactly the start
delimiter. -/
theorem framerInv_recv_start : FramerInv (.RECEIVING, startDelim) := by
  show startDelim <+: startDelim ∧ containsSub endDelim startDelim = false
  exact ⟨List.prefix_refl _, by decide⟩

/-- One framer step preserves the invariant, and any message it emits
begins with the start delimiter and ends with the single occurrence of the
end delimiter. -/
theorem consumeChar_inv {s : FrSt} {c : Char} (h : FramerInv s) :
    FramerInv (consumeChar s c).1 ∧
      ∀ msg, (consumeChar s c).2 = some msg →
        startDelim <+: msg ∧ endDelim <:+ msg ∧ countOccur endDelim msg = 1 := by
  obtain ⟨st, buf⟩ := s
  cases st with
  | IDLE =>
    by_cases hc : containsSub startDelim (buf ++ [c]) = true
    · rw [consumeChar_idle_start hc]
      exact ⟨framerInv_recv_start, fun msg hm => Option.noConfusion hm⟩
    · rw [Bool.not_eq_true] at hc
      by_cases hlen : (buf ++ [c]).length ≤ 100000
      · rw [consumeChar_idle_nostart hc hlen]
        exact ⟨hc, fun msg hm => Option.noConfusion hm⟩
      · rw [consumeChar_idle_nostart_over hc (by omega)]
        exact ⟨framerInv_idle_nil, fun msg hm => Option.noConfusion hm⟩
  | RECEIVING =>
    obtain ⟨hpre, hnoend⟩ := h
    by_cases hc : containsSub endDelim (buf ++ [c]) = true
    · rw [consumeChar_recv_end hc]
      refine ⟨framerInv_idle_nil, ?_⟩
      intro msg hm
      obtain rfl : buf ++ [c] = msg := Option.some.inj hm
      exact ⟨hpre.trans (List.prefix_append buf [c]),
        suffix_of_new_occurrence hc hnoend,
        countOccur_eq_one (by decide) hc hnoend⟩
    · rw [Bool.not_eq_true] at hc
      by_cases hlen : (buf ++ [c]).length ≤ 100000
      · rw [consumeChar_recv_noend hc hlen]
        exact ⟨⟨hpre.trans (List.prefix_append buf [c]), hc⟩,
          fun msg hm => Option.noConfusion hm⟩
      · rw [consumeChar_recv_noend_over hc (by omega)]
        exact ⟨framerInv_idle_nil, fun msg hm => Option.noConfusion hm⟩

/-- Running any input from a state satisfying the invariant keeps it, and
every emitted message is well-delimited. -/
theorem runChars_inv (input : List Char) {s : FrSt} (h : FramerInv s) :
    FramerInv (runChars s input).1 ∧
      ∀ msg ∈ (runChars s input).2,
        startDelim <+: msg ∧ endDelim <:+ msg ∧ countOccur endDelim msg = 1 := by
  induction input generalizing s with
  | nil => exact ⟨h, fun msg hm => absurd hm (List.not_mem_nil msg)⟩
  | cons c cs ih =>
    obtain ⟨hstep, hemit⟩ := consumeChar_inv (c := c) h
    obtain ⟨hrun, hmsgs⟩ := ih hstep
    refine ⟨hrun, ?_⟩
    intro msg hm
    simp only [runChars] at hm
    rcases List.mem_append.mp hm with hm1 | hm2
    · cases ho : (consumeChar s c).2 with
      | none => rw [ho] at hm1; exact absurd hm1 (List.not_mem_nil msg)
      | some m =>
        rw [ho] at hm1
        obtain rfl : msg = m := by simpa using hm1
        exact hemit msg ho
    · exact hmsgs msg hm2

/-- C10: after any input consumed character by character from a fresh
framer, the invariant holds — an idle buffer never contains the start
delimiter, a receiving buffer begins with the start delimiter and does not
contain the end delimiter — and every emitted complete message begins with
the start delimiter, ends with the end delimiter, and contains the end
delimiter exactly once. -/
theorem framer_invariant_and_emission (input : List Char) :
    FramerInv (runChars initFramer input).1 ∧
      ∀ msg ∈ (runChars initFramer input).2,
        startDelim <+: msg ∧ endDelim <:+ msg ∧ countOccur endDelim msg = 1 :=
  runChars_inv input framerInv_idle_nil

/-- Witness for the invariant theorem: the message `<SEND>a</SEND>` is
emitted by the run on `<SEND>a</SEND>x` and is well-delimited. -/
theorem framer_invariant_and_emission_witness :
    "<SEND>a</SEND>".toList ∈ (runChars initFramer "<SEND>a</SEND>x".toList).2 ∧
      (startDelim <+: "<SEND>a</SEND>".toList ∧
        endDelim <:+ "<SEND>a</SEND>".toList ∧
        countOccur endDelim "<SEND>a</SEND>".toList = 1) :=
  ⟨by decide,
    (framer_invariant_and_emission "<SEND>a</SEND>x".toList).2 _ (by decide)⟩

/-! ## Decode isolation -/

/-- C8: the framing component of the pipeline is entirely independent of
the decoder — the event stream is the framed messages mapped through the
decode handler — any step that emits a message has already reset the
framer to idle with a cleared buffer, and a decoder error surfaces as a
distinct failure event. -/
theorem decode_isolated_from_framing :
    (∀ dec s input, (processChars dec s input).1 = (runChars s input).1 ∧
        (processChars dec s input).2 =
          (runChars s input).2.map (handleCompleteMessage dec)) ∧
    (∀ s c msg, (consumeChar s c).2 = some msg →
        (consumeChar s c).1 = ((.IDLE, []) : FrSt)) ∧
    (∀ dec msg e, dec msg = .error e →
        handleCompleteMessage dec msg = .failure e) := by
  refine ⟨?_, ?_, ?_⟩
  · intro dec s input
    induction input generalizing s with
    | nil => exact ⟨rfl, rfl⟩
    | cons c cs ih =>
      obtain ⟨ih1, ih2⟩ := ih (consumeChar s c).1
      constructor
      · simpa only [processChars, runChars] using ih1
      · simp only [processChars, runChars, List.map_append, ih2]
        cases (consumeChar s c).2 <;> simp
  · intro s c msg hm
    obtain ⟨st, buf⟩ := s
    cases st with
    | IDLE =>
      by_cases hc : containsSub startDelim (buf ++ [c]) = true
      · rw [consumeChar_idle_start hc] at hm
        exact Option.noConfusion hm
      · rw [Bool.not_eq_true] at hc
        by_cases hlen : (buf ++ [c]).length ≤ 100000
        · rw [consumeChar_idle_nostart hc hlen] at hm
          exact Option.noConfusion hm
        · rw [consumeChar_idle_nostart_over hc (by omega)] at hm
          exact Option.noConfusion hm
    | RECEIVING =>
      by_cases hc : containsSub endDelim (buf ++ [c]) = true
      · rw [consumeChar_recv_end hc]
      · rw [Bool.not_eq_true] at hc
        by_cases hlen : (buf ++ [c]).length ≤ 100000
        · rw [consumeChar_recv_noend hc hlen] at hm
          exact Option.noConfusion hm
        · rw [consumeChar_recv_noend_over hc (by omega)] at hm
          exact Option.noConfusion hm
  · intro dec msg e hd
    simp [handleCompleteMessage, hd]

/-- Witness for the decode-isolation theorem: a decoder that always fails
does not change the framing outcome of `<SEND>a</SEND>x`, the emitting
step has reset the framer, and the failure is surfaced. -/
theorem decode_isolated_from_framing_witness :
    (processChars (fun _ => Except.error ['!']) initFramer "<SEND>a</SEND>x".toList).1 =
        (runChars initFramer "<SEND>a</SEND>x".toList).1 ∧
    (consumeChar (.RECEIVING, "<SEND>a</SEND".toList) '>').2 =
        some "<SEND>a</SEND>".toList ∧
    (consumeChar (.RECEIVING, "<SEND>a</SEND".toList) '>').1 = ((.IDLE, []) : FrSt) ∧
    handleCompleteMessage (fun _ => Except.error ['!']) "<SEND>a</SEND>".toList =
        .failure ['!'] :=
  ⟨(decode_isolated_from_framing.1 (fun _ => Except.error ['!']) initFramer
      "<SEND>a</SEND>x".toList).1,
    by decide,
    decode_isolated_from_framing.2.1 (.RECEIVING, "<SEND>a</SEND".toList) '>'
      "<SEND>a</SEND>".toList (by decide),
    decode_isolated_from_framing.2.2 (fun _ => Except.error ['!'])
      "<SEND>a</SEND>".toList ['!'] rfl⟩

/-! ## Results-map lemmas -/

/-- Looking up the key just stored by `insertEntry` yields the new entry. -/
theorem lookup_insertEntry_self (acc : List (List Char × ResultEntry))
    (k : List Char) (e : ResultEntry) :
    List.lookup k (insertEntry acc k e) = some e := by
  unfold insertEntry
  by_cases h : (List.lookup k acc).isSome
  · rw [if_pos h]
    induction acc with
    | nil => simp [List.lookup] at h
    | cons p t ih =>
      obtain ⟨a, b⟩ := p
      by_cases hak : (a, b).1 = k
      · simp only [List.map_cons, if_pos hak]
        have : (k == k) = true := beq_self_eq_true k
        simp [List.lookup_cons]
      · simp only [List.map_cons, if_neg hak]
        have hbeq : (k == a) = false := by
          rw [beq_eq_false_iff_ne]
          intro hk
          exact hak (by simp [hk])
        rw [List.lookup_cons] at h
        simp only [hbeq] at h
        simp only [List.lookup_cons, hbeq]
        exact ih h
  · rw [if_neg h]
    rw [Option.not_isSome_iff_eq_none] at h
    induction acc with
    | nil => simp [List.lookup]
    | cons p t ih =>
      obtain ⟨a, b⟩ := p
      rw [List.lookup_cons] at h
      cases hbeq : (k == a) with
      | true => simp only [hbeq] at h; exact Option.noConfusion h
      | false =>
        simp only [hbeq] at h
        rw [List.cons_append, List.lookup_cons]
        simp only [hbeq]
        exact ih h

/-- Every entry of `insertEntry` is an old entry or the new pair. -/
theorem mem_insertEntry {acc : List (List Char × ResultEntry)}
    {k : List Char} {e : ResultEntry} {p : List Char × ResultEntry}
    (h : p ∈ insertEntry acc k e) : p ∈ acc ∨ p = (k, e) := by
  unfold insertEntry at h
  by_cases hg : (List.lookup k acc).isSome
  · rw [if_pos hg] at h
    obtain ⟨q, hq, hfq⟩ := List.mem_map.mp h
    by_cases hqk : q.1 = k
    · rw [if_pos hqk] at hfq
      exact Or.inr hfq.symm
    · rw [if_neg hqk] at hfq
      exact Or.inl (hfq ▸ hq)
  · rw [if_neg hg] at h
    rcases List.mem_append.mp h with h1 | h2
    · exact Or.inl h1
    · exact Or.inr (List.mem_singleton.mp h2)

/-- The step on a line that splits into a key and a value: stored unless a
half is empty. -/
theorem buildStep_cons {acc : List (List Char × ResultEntry)} {l k v : List Char}
    {rest : List (List Char)} (hsplit : splitOnChar '|' l = k :: v :: rest) :
    buildStep acc l =
      if k = [] ∨ v = [] then acc
      else insertEntry acc k ⟨jsParseFloat v, "%".toList, none⟩ := by
  unfold buildStep
  rw [hsplit]

/-- The step on a line that does not split into at least two halves is a
no-op. -/
theorem buildStep_single {acc : List (List Char × ResultEntry)} {l x : List Char}
    (hsplit : splitOnChar '|' l = [x]) : buildStep acc l = acc := by
  unfold buildStep
  rw [hsplit]

/-- Every entry produced by folding `buildStep` keeps a property that holds
of the accumulator and of every freshly inserted entry. -/
theorem foldl_buildStep_entries (P : ResultEntry → Prop)
    (hP : ∀ v, P ⟨jsParseFloat v, "%".toList, none⟩) :
    ∀ (lines : List (List Char)) (acc : List (List Char × ResultEntry)),
      (∀ p ∈ acc, P p.2) → ∀ p ∈ lines.foldl buildStep acc, P p.2 := by
  intro lines
  induction lines with
  | nil => intro acc hacc p hp; exact hacc p hp
  | cons l ls ih =>
    intro acc hacc p hp
    rw [List.foldl_cons] at hp
    refine ih (buildStep acc l) ?_ p hp
    intro q hq
    rcases hsplit : splitOnChar '|' l with _ | ⟨k, _ | ⟨v, rest⟩⟩
    · unfold buildStep at hq
      rw [hsplit] at hq
      exact hacc q hq
    · rw [buildStep_single hsplit] at hq
      exact hacc q hq
    · rw [buildStep_cons hsplit] at hq
      by_cases hkv : k = [] ∨ v = []
      · rw [if_pos hkv] at hq; exact hacc q hq
      · rw [if_neg hkv] at hq
        rcases mem_insertEntry hq with h1 | h2
        · exact hacc q h1
        · rw [h2]; exact hP v

/-- Entries of `resultsOf` all carry the fixed `%` unit and no
interpretation. -/
theorem resultsOf_entries (clean : List Char) :
    ∀ p ∈ resultsOf clean, p.2.unit = "%".toList ∧ p.2.interpretation = none := by
  intro p hp
  unfold resultsOf at hp
  rcases hex : extractSection "<R>".toList "</R>".toList clean with _ | body
  · rw [hex] at hp; exact absurd hp (List.not_mem_nil p)
  · rw [hex] at hp
    unfold buildResults at hp
    exact foldl_buildStep_entries (fun e => e.unit = "%".toList ∧ e.interpretation = none)
      (fun v => ⟨rfl, rfl⟩) _ [] (fun q hq => absurd hq (List.not_mem_nil q)) p hp

/-- Lookup through the update-in-place map used by the interpretation
pass. -/
theorem lookup_map_update (g : ResultEntry → ResultEntry) (k₀ k : List Char)
    (rs : List (List Char × ResultEntry)) :
    List.lookup k (rs.map (fun p => if p.1 = k₀ then (p.1, g p.2) else p)) =
      (if k = k₀ then (List.lookup k rs).map g else List.lookup k rs) := by
  induction rs with
  | nil => simp [List.lookup]
  | cons p t ih =>
    obtain ⟨a, b⟩ := p
    by_cases hak : a = k₀
    · subst hak
      by_cases hka : k = a
      · subst hka
        simp [List.lookup_cons]
      · have hbeq : (k == a) = false := beq_eq_false_iff_ne.mpr hka
        simp [List.lookup_cons, hbeq, hka, ih]
    · by_cases hka : k = a
      · subst hka
        simp [List.lookup_cons, hak]
      · have hbeq : (k == a) = false := beq_eq_false_iff_ne.mpr hka
        simp [List.lookup_cons, hbeq, hka, hak, ih]

/-- When no `HbA1c` entry exists, the interpretation pass changes
nothing. -/
theorem applyInterpretation_of_none {rs : List (List Char × ResultEntry)}
    (h : List.lookup hbKey rs = none) : applyInterpretation rs = rs := by
  unfold applyInterpretation
  rw [h]
  rfl

/-- Lookup of the `HbA1c` key after the interpretation pass: the base
entry, with its interpretation set from its own value. -/
theorem lookup_applyInterpretation (rs : List (List Char × ResultEntry)) :
    List.lookup hbKey (applyInterpretation rs) =
      (List.lookup hbKey rs).map
        (fun e => (⟨e.value, e.unit, some (interpOf e.value)⟩ : ResultEntry)) := by
  unfold applyInterpretation
  rcases h : List.lookup hbKey rs with _ | e
  · exact h
  · simp only [Option.isSome_some, if_true]
    rw [lookup_map_update
      (fun e => (⟨e.value, e.unit, some (interpOf e.value)⟩ : ResultEntry))
      hbKey hbKey rs, if_pos rfl, h]

/-- Entries with other keys are untouched by the interpretation pass. -/
theorem mem_applyInterpretation_ne {rs : List (List Char × ResultEntry)}
    {p : List Char × ResultEntry} (hmem : p ∈ applyInterpretation rs)
    (hne : p.1 ≠ hbKey) : p ∈ rs := by
  unfold applyInterpretation at hmem
  by_cases h : (List.lookup hbKey rs).isSome
  · rw [if_pos h] at hmem
    obtain ⟨q, hq, hfq⟩ := List.mem_map.mp hmem
    by_cases hqk : q.1 = hbKey
    · rw [if_pos hqk] at hfq
      exfalso
      apply hne
      rw [← hfq]
      exact hqk
    · rw [if_neg hqk] at hfq
      exact hfq ▸ hq
  · rw [if_neg h] at hmem
    exact hmem

/-- C1 (amended): `parseProtocol` never adds an interpretation to any entry
other than `HbA1c`, and adds none at all when `HbA1c` is absent; but when
`HbA1c` is present with a not-a-number value, its interpretation is set to
`Diabetes` — the not-a-number comparisons are false, so the final else
branch of the range chain is taken. -/
theorem hba1c_interp_only_hbKey (raw now : List Char) :
    (List.lookup hbKey (parseProtocol raw now).results = none →
      ∀ p ∈ (parseProtocol raw now).results, p.2.interpretation = none) ∧
    (∀ p ∈ (parseProtocol raw now).results, p.1 ≠ hbKey →
      p.2.interpretation = none) ∧
    (∀ e : ResultEntry, List.lookup hbKey (parseProtocol raw now).results = some e →
      e.value = JSNum.nan → e.interpretation = some "Diabetes".toList) := by
  have hres : (parseProtocol raw now).results =
      applyInterpretation (resultsOf (normalizeNewlines raw)) := rfl
  refine ⟨?_, ?_, ?_⟩
  · intro hnone p hp
    rw [hres, lookup_applyInterpretation] at hnone
    have hbase : List.lookup hbKey (resultsOf (normalizeNewlines raw)) = none :=
      Option.map_eq_none'.mp hnone
    rw [hres, applyInterpretation_of_none hbase] at hp
    exact (resultsOf_entries _ p hp).2
  · intro p hp hne
    rw [hres] at hp
    exact (resultsOf_entries _ p (mem_applyInterpretation_ne hp hne)).2
  · intro e hl hnan
    rw [hres, lookup_applyInterpretation] at hl
    obtain ⟨e₀, _, hge⟩ := Option.map_eq_some'.mp hl
    have hval : e₀.value = JSNum.nan := by
      rw [← hnan, ← hge]
    have hint : e.interpretation = some (interpOf e₀.value) := by
      rw [← hge]
    rw [hval] at hint
    exact hint

/-- C1 (counterexample): a message whose `HbA1c` line carries the
non-numeric value `abc` decodes to an `HbA1c` entry whose value is the
not-a-number marker and whose interpretation is `Diabetes` — an
interpretation is added, contradicting the claim that none is. -/
theorem hba1c_nan_gets_diabetes_cex :
    List.lookup hbKey
        (parseProtocol "<SEND>\n<R>\nHbA1c|abc\n</R>\n</SEND>".toList "t".toList).results =
      some ⟨JSNum.nan, "%".toList, some "Diabetes".toList⟩ :=
  of_decide_eq_true (by with_unfolding_all rfl)

/-- Witness for the interpretation-scope theorem: with only a `Glu` entry
no interpretation is added anywhere, and a not-a-number `HbA1c` entry is
annotated `Diabetes`. -/
theorem hba1c_interp_only_hbKey_witness :
    List.lookup hbKey
        (parseProtocol "<SEND>\n<R>\nGlu|x\n</R>\n</SEND>".toList "t".toList).results =
      none ∧
    ("Glu".toList, (⟨JSNum.nan, "%".toList, none⟩ : ResultEntry)) ∈
      (parseProtocol "<SEND>\n<R>\nGlu|x\n</R>\n</SEND>".toList "t".toList).results ∧
    "Glu".toList ≠ hbKey ∧
    (⟨JSNum.nan, "%".toList, none⟩ : ResultEntry).interpretation = none ∧
    List.lookup hbKey
        (parseProtocol "<SEND>\n<R>\nHbA1c|abc\n</R>\n</SEND>".toList "t".toList).results =
      some ⟨JSNum.nan, "%".toList, some "Diabetes".toList⟩ ∧
    (⟨JSNum.nan, "%".toList, some "Diabetes".toList⟩ : ResultEntry).value = JSNum.nan ∧
    (⟨JSNum.nan, "%".toList, some "Diabetes".toList⟩ : ResultEntry).interpretation =
      some "Diabetes".toList := by
  have h1 : List.lookup hbKey
      (parseProtocol "<SEND>\n<R>\nGlu|x\n</R>\n</SEND>".toList "t".toList).results =
      none := by decide
  have h2 : ("Glu".toList, (⟨JSNum.nan, "%".toList, none⟩ : ResultEntry)) ∈
      (parseProtocol "<SEND>\n<R>\nGlu|x\n</R>\n</SEND>".toList "t".toList).results := by
    decide
  have h5 : List.lookup hbKey
      (parseProtocol "<SEND>\n<R>\nHbA1c|abc\n</R>\n</SEND>".toList "t".toList).results =
      some ⟨JSNum.nan, "%".toList, some "Diabetes".toList⟩ := by decide
  exact ⟨h1, h2, by decide,
    (hba1c_interp_only_hbKey "<SEND>\n<R>\nGlu|x\n</R>\n</SEND>".toList "t".toList).1 h1 _ h2,
    h5, rfl,
    (hba1c_interp_only_hbKey "<SEND>\n<R>\nHbA1c|abc\n</R>\n</SEND>".toList "t".toList).2.2
      _ h5 rfl⟩

/-- C2: an `HbA1c` entry with a numeric (finite rational) value is
annotated with exactly one of the three ordered ranges, with inclusive
lower bounds at 5.7 and 6.5. -/
theorem hba1c_numeric_ranges (raw now : List Char) (q : ℚ) (e : ResultEntry)
    (hl : List.lookup hbKey (parseProtocol raw now).results = some e)
    (hv : e.value = JSNum.num q) :
    (q < 5.7 → e.interpretation = some "Normal".toList) ∧
    (5.7 ≤ q → q < 6.5 → e.interpretation = some "Prediabetes".toList) ∧
    (6.5 ≤ q → e.interpretation = some "Diabetes".toList) := by
  have hres : (parseProtocol raw now).results =
      applyInterpretation (resultsOf (normalizeNewlines raw)) := rfl
  rw [hres, lookup_applyInterpretation] at hl
  obtain ⟨e₀, _, hge⟩ := Option.map_eq_some'.mp hl
  have hval : e₀.value = JSNum.num q := by
    rw [← hv, ← hge]
  have hint : e.interpretation = some (interpOf e₀.value) := by
    rw [← hge]
  rw [hval] at hint
  refine ⟨?_, ?_, ?_⟩
  · intro hq
    rw [hint]
    simp [interpOf, jsLtQ, hq]
  · intro hq1 hq2
    rw [hint]
    simp [interpOf, jsLtQ, not_lt.mpr hq1, hq2]
  · intro hq
    have h57 : ¬ q < 5.7 := not_lt.mpr (le_trans (by norm_num) hq)
    have h65 : ¬ q < 6.5 := not_lt.mpr hq
    rw [hint]
    simp [interpOf, jsLtQ, h57, h65]

/-- Witness for the range theorem: the boundary value 5.7 classifies as
`Prediabetes` (inclusive lower bound). -/
theorem hba1c_numeric_ranges_witness :
    List.lookup hbKey
        (parseProtocol "<SEND>\n<R>\nHbA1c|5.7\n</R>\n</SEND>".toList "t".toList).results =
      some ⟨JSNum.num (57/10 : ℚ), "%".toList, some "Prediabetes".toList⟩ ∧
    (⟨JSNum.num (57/10 : ℚ), "%".toList, some "Prediabetes".toList⟩ : ResultEntry).value =
      JSNum.num (57/10 : ℚ) ∧
    (5.7 : ℚ) ≤ 57/10 ∧ (57/10 : ℚ) < 6.5 ∧
    (⟨JSNum.num (57/10 : ℚ), "%".toList, some "Prediabetes".toList⟩ : ResultEntry).interpretation =
      some "Prediabetes".toList := by
  have hl : List.lookup hbKey
      (parseProtocol "<SEND>\n<R>\nHbA1c|5.7\n</R>\n</SEND>".toList "t".toList).results =
      some ⟨JSNum.num (57/10 : ℚ), "%".toList, some "Prediabetes".toList⟩ :=
    of_decide_eq_true (by with_unfolding_all rfl)
  exact ⟨hl, rfl, by norm_num, by norm_num,
    (hba1c_numeric_ranges _ _ (57/10 : ℚ) _ hl rfl).2.1 (by norm_num) (by norm_num)⟩

/-- C3: when the message has an `I` section, the decoded sample record
takes its five fields positionally from the bar-separated body (missing
trailing fields stay absent), and the sample type is the fixed table
applied to the `Number(...)`-converted fifth field: 0, 1, 2, 3 map to their
labels and every other value — including every string that does not
convert to one of these numbers — maps to `unknown`. -/
theorem sample_type_mapping (raw now body : List Char)
    (hI : extractSection "<I>".toList "</I>".toList (normalizeNewlines raw) = some body) :
    ((parseProtocol raw now).sampleInfo =
      { recordType := (splitOnChar '|' (trimWS body))[0]?,
        analysisTime := (splitOnChar '|' (trimWS body))[1]?,
        sampleId := (splitOnChar '|' (trimWS body))[2]?,
        samplePosition := (splitOnChar '|' (trimWS body))[3]?,
        sampleTypeCode := some (jsNumber (splitOnChar '|' (trimWS body))[4]?),
        sampleType := some (typeLabel (jsNumber (splitOnChar '|' (trimWS body))[4]?)) }) ∧
    typeLabel (.num 0) = "whole_blood".toList ∧
    typeLabel (.num 1) = "quality_control".toList ∧
    typeLabel (.num 2) = "calibration".toList ∧
    typeLabel (.num 3) = "diluted".toList ∧
    (∀ n : JSNum, n ≠ .num 0 → n ≠ .num 1 → n ≠ .num 2 → n ≠ .num 3 →
      typeLabel n = "unknown".toList) := by
  refine ⟨?_, of_decide_eq_true (by with_unfolding_all rfl),
    of_decide_eq_true (by with_unfolding_all rfl),
    of_decide_eq_true (by with_unfolding_all rfl),
    of_decide_eq_true (by with_unfolding_all rfl), ?_⟩
  · show sampleInfoOf (normalizeNewlines raw) = _
    unfold sampleInfoOf
    rw [hI]
  · intro n h0 h1 h2 h3
    cases n with
    | nan => rfl
    | posInf => rfl
    | negInf => rfl
    | num q =>
      have hq0 : ¬ q = 0 := fun h => h0 (by rw [h])
      have hq1 : ¬ q = 1 := fun h => h1 (by rw [h])
      have hq2 : ¬ q = 2 := fun h => h2 (by rw [h])
      have hq3 : ¬ q = 3 := fun h => h3 (by rw [h])
      unfold typeLabel typeMapLookup
      simp only [if_neg hq0, if_neg hq1, if_neg hq2, if_neg hq3]
      rfl

/-- Witness for the sample-type theorem: a concrete message whose fifth
sample field is `2` decodes to `calibration`, and the non-numeric code
value NaN maps to `unknown`. -/
theorem sample_type_mapping_witness :
    extractSection "<I>".toList "</I>".toList
        (normalizeNewlines "<SEND><I>a|b|c|d|2</I></SEND>".toList) =
      some "a|b|c|d|2".toList ∧
    (parseProtocol "<SEND><I>a|b|c|d|2</I></SEND>".toList "t".toList).sampleInfo =
      { recordType := (splitOnChar '|' (trimWS "a|b|c|d|2".toList))[0]?,
        analysisTime := (splitOnChar '|' (trimWS "a|b|c|d|2".toList))[1]?,
        sampleId := (splitOnChar '|' (trimWS "a|b|c|d|2".toList))[2]?,
        samplePosition := (splitOnChar '|' (trimWS "a|b|c|d|2".toList))[3]?,
        sampleTypeCode := some (jsNumber (splitOnChar '|' (trimWS "a|b|c|d|2".toList))[4]?),
        sampleType := some (typeLabel (jsNumber (splitOnChar '|' (trimWS "a|b|c|d|2".toList))[4]?)) } ∧
    (JSNum.nan ≠ JSNum.num 0) ∧
    typeLabel JSNum.nan = "unknown".toList := by
  have hI : extractSection "<I>".toList "</I>".toList
      (normalizeNewlines "<SEND><I>a|b|c|d|2</I></SEND>".toList) =
      some "a|b|c|d|2".toList := by decide
  refine ⟨hI, (sample_type_mapping _ "t".toList _ hI).1, ?_, ?_⟩
  · intro h
    exact JSNum.noConfusion h
  · exact (sample_type_mapping "<SEND><I>a|b|c|d|2</I></SEND>".toList "t".toList _ hI).2.2.2.2.2
      JSNum.nan (fun h => JSNum.noConfusion h) (fun h => JSNum.noConfusion h)
      (fun h => JSNum.noConfusion h) (fun h => JSNum.noConfusion h)

/-- C9: every section absent from the input yields that section's
empty/default sub-record, with no failure — decoding is total. -/
theorem absent_sections_default (raw now : List Char) :
    (extractM (normalizeNewlines raw) = none →
      (parseProtocol raw now).machineInfo = ⟨none, none⟩) ∧
    (extractSection "<I>".toList "</I>".toList (normalizeNewlines raw) = none →
      (parseProtocol raw now).sampleInfo = SampleInfo.empty) ∧
    (extractSection "<R>".toList "</R>".toList (normalizeNewlines raw) = none →
      (parseProtocol raw now).results = []) := by
  refine ⟨?_, ?_, ?_⟩
  · intro h
    show machineInfoOf (normalizeNewlines raw) = _
    unfold machineInfoOf
    rw [h]
  · intro h
    show sampleInfoOf (normalizeNewlines raw) = _
    unfold sampleInfoOf
    rw [h]
  · intro h
    show applyInterpretation (resultsOf (normalizeNewlines raw)) = _
    unfold resultsOf
    rw [h]
    rfl

/-- Witness for the absent-sections theorem: a message with no sections at
all decodes to all-default sub-records. -/
theorem absent_sections_default_witness :
    extractM (normalizeNewlines "<SEND></SEND>".toList) = none ∧
    extractSection "<I>".toList "</I>".toList
      (normalizeNewlines "<SEND></SEND>".toList) = none ∧
    extractSection "<R>".toList "</R>".toList
      (normalizeNewlines "<SEND></SEND>".toList) = none ∧
    (parseProtocol "<SEND></SEND>".toList "t".toList).machineInfo = ⟨none, none⟩ ∧
    (parseProtocol "<SEND></SEND>".toList "t".toList).sampleInfo = SampleInfo.empty ∧
    (parseProtocol "<SEND></SEND>".toList "t".toList).results = [] :=
  ⟨by decide, by decide, by decide,
    (absent_sections_default _ "t".toList).1 (by decide),
    (absent_sections_default _ "t".toList).2.1 (by decide),
    (absent_sections_default _ "t".toList).2.2 (by decide)⟩

/-- C6: the results section is decoded tolerantly and totally — the
decoded map is the fold of the trimmed, non-blank lines (blank lines are
dropped before the fold and a blank line among the processed lines is a
no-op); a line missing its key half or its value half is skipped entirely;
a well-split line is stored with its `parseFloat` value — the not-a-number
marker when the value does not parse — and the fixed `%` unit; and every
decoded entry carries the `%` unit. -/
theorem results_section_tolerance (raw now : List Char) :
    (∀ body, extractSection "<R>".toList "</R>".toList (normalizeNewlines raw) = some body →
      (parseProtocol raw now).results = applyInterpretation (buildResults body) ∧
      buildResults body =
        (((splitOnChar '\n' body).map trimWS).filter (· ≠ [])).foldl buildStep []) ∧
    (∀ p ∈ (parseProtocol raw now).results, p.2.unit = "%".toList) ∧
    (∀ (acc : List (List Char × ResultEntry)) (l : List Char),
      (∀ k v rest, splitOnChar '|' l = k :: v :: rest → k = [] ∨ v = []) →
      buildStep acc l = acc) ∧
    (∀ (acc : List (List Char × ResultEntry)) (l k v : List Char)
        (rest : List (List Char)),
      splitOnChar '|' l = k :: v :: rest → k ≠ [] → v ≠ [] →
      buildStep acc l = insertEntry acc k ⟨jsParseFloat v, "%".toList, none⟩) ∧
    (∀ (acc : List (List Char × ResultEntry)) (k : List Char) (e : ResultEntry),
      List.lookup k (insertEntry acc k e) = some e) ∧
    (∀ (acc : List (List Char × ResultEntry)) (ls₁ ls₂ : List (List Char)),
      List.foldl buildStep acc (ls₁ ++ [] :: ls₂) =
        List.foldl buildStep acc (ls₁ ++ ls₂)) := by
  refine ⟨?_, ?_, ?_, ?_, lookup_insertEntry_self, ?_⟩
  · intro body h
    constructor
    · show applyInterpretation (resultsOf (normalizeNewlines raw)) = _
      unfold resultsOf
      rw [h]
    · rfl
  · intro p hp
    have hres : (parseProtocol raw now).results =
        applyInterpretation (resultsOf (normalizeNewlines raw)) := rfl
    rw [hres] at hp
    unfold applyInterpretation at hp
    by_cases hg : (List.lookup hbKey (resultsOf (normalizeNewlines raw))).isSome
    · rw [if_pos hg] at hp
      obtain ⟨q, hq, hfq⟩ := List.mem_map.mp hp
      by_cases hqk : q.1 = hbKey
      · rw [if_pos hqk] at hfq
        rw [← hfq]
        exact (resultsOf_entries _ q hq).1
      · rw [if_neg hqk] at hfq
        rw [← hfq]
        exact (resultsOf_entries _ q hq).1
    · rw [if_neg hg] at hp
      exact (resultsOf_entries _ p hp).1
  · intro acc l hshort
    rcases hsplit : splitOnChar '|' l with _ | ⟨k, _ | ⟨v, rest⟩⟩
    · unfold buildStep
      rw [hsplit]
    · exact buildStep_single hsplit
    · rw [buildStep_cons hsplit, if_pos (hshort k v rest hsplit)]
  · intro acc l k v rest hsplit hk hv
    rw [buildStep_cons hsplit, if_neg (not_or.mpr ⟨hk, hv⟩)]
  · intro acc ls₁ ls₂
    rw [List.foldl_append, List.foldl_append, List.foldl_cons]
    rfl

/-- Witness for the results-tolerance theorem: a section whose lines
include a blank line, a line missing its value, a bar-led line missing its
key, and a line with a non-numeric value; the non-numeric line yields an
entry with the not-a-number marker and the `%` unit. -/
theorem results_section_tolerance_witness :
    extractSection "<R>".toList "</R>".toList
        (normalizeNewlines "<SEND>\n<R>\nGlu|abc\n\nnokey\n|noval\n</R>\n</SEND>".toList) =
      some "Glu|abc\n\nnokey\n|noval".toList ∧
    (parseProtocol "<SEND>\n<R>\nGlu|abc\n\nnokey\n|noval\n</R>\n</SEND>".toList
        "t".toList).results =
      applyInterpretation (buildResults "Glu|abc\n\nnokey\n|noval".toList) ∧
    ("Glu".toList, (⟨JSNum.nan, "%".toList, none⟩ : ResultEntry)) ∈
      (parseProtocol "<SEND>\n<R>\nGlu|abc\n\nnokey\n|noval\n</R>\n</SEND>".toList
        "t".toList).results ∧
    (⟨JSNum.nan, "%".toList, none⟩ : ResultEntry).unit = "%".toList ∧
    buildStep [] "nokey".toList = [] ∧
    splitOnChar '|' "a|b".toList = ["a".toList, "b".toList] ∧
    buildStep [] "a|b".toList =
      insertEntry [] "a".toList ⟨jsParseFloat "b".toList, "%".toList, none⟩ ∧
    List.lookup "k".toList
        (insertEntry [] "k".toList ⟨JSNum.nan, "%".toList, none⟩) =
      some ⟨JSNum.nan, "%".toList, none⟩ ∧
    List.foldl buildStep [] (["a|b".toList] ++ [] :: ["c|d".toList]) =
      List.foldl buildStep [] (["a|b".toList] ++ ["c|d".toList]) := by
  have hx : extractSection "<R>".toList "</R>".toList
      (normalizeNewlines "<SEND>\n<R>\nGlu|abc\n\nnokey\n|noval\n</R>\n</SEND>".toList) =
      some "Glu|abc\n\nnokey\n|noval".toList := by decide
  have hthm := results_section_tolerance
    "<SEND>\n<R>\nGlu|abc\n\nnokey\n|noval\n</R>\n</SEND>".toList "t".toList
  refine ⟨hx, (hthm.1 _ hx).1, ?_, rfl, ?_, by decide, ?_, ?_, ?_⟩
  · decide
  · apply hthm.2.2.1
    intro k v rest h
    have hs : splitOnChar '|' "nokey".toList = ["nokey".toList] := by decide
    rw [hs] at h
    obtain ⟨-, h2⟩ := List.cons.inj h
    exact absurd h2.symm (List.cons_ne_nil v rest)
  · exact hthm.2.2.2.1 [] "a|b".toList "a".toList "b".toList [] (by decide)
      (by decide) (by decide)
  · exact hthm.2.2.2.2.1 [] "k".toList ⟨JSNum.nan, "%".toList, none⟩
  · exact hthm.2.2.2.2.2 [] ["a|b".toList] ["c|d".toList]

end LIS
